import Mathlib

/-!
Shallow embedding of the rB on-ledger fee-and-royalty settlement programs.

Sources embedded:
- `src/blockchain/rb_contracts/programs/renaiss_block/src/lib.rs`
  (`math::split_fee`, `mint_nft`, `mint_collaborative_nft`, `CollaborationError`)
- `src/blockchain/programs/renaissBlock/src/lib.rs` (`math::split_fee`, identical body)
- `src/blockchain/rb_contracts/programs/rb_contracts/src/lib.rs`
  (`mint_nft`, `RoyaltyAccount`, `RoyaltyShare`)

Machine integers are modelled as `Nat` with explicit `% 2^w` at every point
where the Rust code performs an `as` cast; Rust `saturating_sub` on unsigned
integers coincides with truncated `Nat` subtraction.  Pubkeys are modelled as
`Nat` (a 32-byte value; its concrete numeric content is irrelevant to the
program logic, which only compares pubkeys for equality).
-/

namespace RB

def U64_MOD : Nat := 2 ^ 64

def U128_MOD : Nat := 2 ^ 128

namespace Math

/-- `math::split_fee` from `renaiss_block/src/lib.rs` lines 13-18 (same body in
`renaissBlock/src/lib.rs` lines 37-42):
`fee = ((gross_cents as u128) * (fee_bps as u128)) / 10_000u128` truncated back
to `u64`, `net = gross_cents.saturating_sub(fee)`. -/
def split_fee (gross_cents fee_bps : Nat) : Nat × Nat :=
  let fee := ((gross_cents * fee_bps) % U128_MOD) / 10000 % U64_MOD
  let net := gross_cents - fee
  (fee, net)

end Math

/-- `CreatorSplitData` struct: `{ creator_pubkey: Pubkey, percentage: u8 }`. -/
structure CreatorSplitData where
  creator_pubkey : Nat
  percentage : Nat
  deriving Repr, DecidableEq

/-- `CollaborationError` error codes from `renaiss_block/src/lib.rs`. -/
inductive CollaborationError where
  | InvalidSplitPercentage
  | TooManyCreators
  | InvalidCreatorPercentage
  | PlatformWalletMismatch
  | MissingCreatorAccount
  | CreatorAccountMismatch
  | NoCreators
  deriving Repr, DecidableEq

/-- The `PLATFORM_WALLET` constant.  The source fixes a specific base58-encoded
32-byte pubkey; its numeric value never influences the logic verified here, so
it is represented by a fixed arbitrary `Nat`. -/
def PLATFORM_WALLET : Nat := 314159

/-- Observable ledger actions issued by a mint instruction, in issue order:
the platform-fee lamport transfer, a lamport transfer to the creator at a given
schedule position, and the `token::mint_to` issuance of the NFT token. -/
inductive Action where
  | feeTransfer (dest : Nat) (amount : Nat)
  | creatorTransfer (idx : Nat) (dest : Nat) (amount : Nat)
  | mintToken
  deriving Repr, DecidableEq

/-- The four `require!` checks opening `mint_collaborative_nft`
(lines 82-105), in source order: creator-count upper bound, non-emptiness,
total percentage (summed as `u16`) equal to 100, and each individual
percentage strictly between 0 and 100.  Returns the first failing check's
error, or `none` when all pass. -/
def validate_creator_splits (creator_splits : List CreatorSplitData) : Option CollaborationError :=
  if 10 < creator_splits.length then some .TooManyCreators
  else if creator_splits.isEmpty then some .NoCreators
  else if (creator_splits.map (fun c => c.percentage)).sum % 2 ^ 16 ≠ 100 then
    some .InvalidSplitPercentage
  else if creator_splits.any (fun c => !(decide (0 < c.percentage) && decide (c.percentage < 100))) then
    some .InvalidCreatorPercentage
  else none

/-- `platform_fee` local of `mint_collaborative_nft` line 109 (and `fee` in
`mint_nft` line 44): `((sale as u128) * (1000u16 as u128) / 10_000u128) as u64`. -/
def platform_fee_of (sale_amount_lamports : Nat) : Nat :=
  ((sale_amount_lamports * 1000) % U128_MOD) / 10000 % U64_MOD

/-- `remaining_amount` local of `mint_collaborative_nft` line 110:
`sale_amount_lamports.saturating_sub(platform_fee)`. -/
def remaining_of (sale_amount_lamports : Nat) : Nat :=
  sale_amount_lamports - platform_fee_of sale_amount_lamports

/-- `creator_amount` computed in the distribution loop, line 131:
`((remaining_amount as u128) * (percentage as u128) / 100u128) as u64`. -/
def creator_amount (remaining_amount percentage : Nat) : Nat :=
  ((remaining_amount * percentage) % U128_MOD) / 100 % U64_MOD

/-- The creator-distribution loop of `mint_collaborative_nft` (lines 130-158):
for each schedule position `i` in order, compute `creator_amount`; when it is
nonzero, fetch `remaining_accounts[i]` (failing with `MissingCreatorAccount`
when absent), require its key to equal the recorded `creator_pubkey` (failing
with `CreatorAccountMismatch`), and issue the transfer.  Returns the issued
transfer actions in order. -/
def distribute_creators (remaining_amount : Nat) (creator_splits : List CreatorSplitData)
    (remaining_accounts : List Nat) (i : Nat) : Except CollaborationError (List Action) :=
  match creator_splits with
  | [] => .ok []
  | s :: rest =>
    let amt := creator_amount remaining_amount s.percentage
    if 0 < amt then
      match remaining_accounts.get? i with
      | none => .error .MissingCreatorAccount
      | some acct =>
        if acct = s.creator_pubkey then
          match distribute_creators remaining_amount rest remaining_accounts (i + 1) with
          | .error e => .error e
          | .ok tr => .ok (.creatorTransfer i acct amt :: tr)
        else .error .CreatorAccountMismatch
    else distribute_creators remaining_amount rest remaining_accounts (i + 1)

/-- Result of a successful `mint_collaborative_nft`: the quantities carried by
the `CollaborativeMinted` event plus the ordered action trace the instruction
issued (per-creator amounts are the values computed by the loop at each
schedule position). -/
structure CollabResult where
  platform_fee : Nat
  remaining_amount : Nat
  creator_amounts : List Nat
  num_creators : Nat
  trace : List Action
  deriving Repr, DecidableEq

/-- `mint_collaborative_nft` (lines 75-185): the four validation `require!`s,
then the platform-fee transfer (issued only when the fee is nonzero), then the
creator-distribution loop, then `token::mint_to` of one token, then the event. -/
def mint_collaborative_nft (sale_amount_lamports : Nat)
    (creator_splits : List CreatorSplitData) (remaining_accounts : List Nat) :
    Except CollaborationError CollabResult :=
  match validate_creator_splits creator_splits with
  | some e => .error e
  | none =>
    let platform_fee := platform_fee_of sale_amount_lamports
    let remaining_amount := remaining_of sale_amount_lamports
    let feeActs := if 0 < platform_fee then [Action.feeTransfer PLATFORM_WALLET platform_fee] else []
    match distribute_creators remaining_amount creator_splits remaining_accounts 0 with
    | .error e => .error e
    | .ok tr =>
      .ok { platform_fee := platform_fee
            remaining_amount := remaining_amount
            creator_amounts :=
              creator_splits.map (fun s => creator_amount remaining_amount s.percentage)
            num_creators := creator_splits.length
            trace := feeActs ++ tr ++ [Action.mintToken] }

/-- Result of `mint_nft` (single-creator path): the computed fee and the
ordered action trace. -/
structure MintNftResult where
  fee : Nat
  trace : List Action
  deriving Repr, DecidableEq

/-- `mint_nft` from `renaiss_block/src/lib.rs` lines 32-72: first
`token::mint_to` of one token to the recipient, then the platform-fee transfer
(issued only when the fee is nonzero). -/
def mint_nft (sale_amount_lamports : Nat) : MintNftResult :=
  let fee := platform_fee_of sale_amount_lamports
  let feeActs := if 0 < fee then [Action.feeTransfer PLATFORM_WALLET fee] else []
  { fee := fee, trace := [Action.mintToken] ++ feeActs }

/-- The ordering contract on an issued action trace, read pairwise over the
trace: no creator transfer precedes the platform-fee transfer is violated when
a creator transfer comes first (so every fee transfer precedes every creator
transfer), no token issuance precedes a creator transfer, and two creator
transfers occur in strictly increasing schedule position. -/
def scheduleOrderB : Action → Action → Bool := fun a b =>
  match a, b with
  | .creatorTransfer _ _ _, .feeTransfer _ _ => false
  | .mintToken, .creatorTransfer _ _ _ => false
  | .creatorTransfer i _ _, .creatorTransfer j _ _ => decide (i < j)
  | _, _ => true

namespace RbContracts

/-- `RoyaltyShare` from `rb_contracts/src/lib.rs`:
`{ recipient: Pubkey, percent: u8 }`. -/
structure RoyaltyShare where
  recipient : Nat
  percent : Nat
  deriving Repr, DecidableEq

/-- `RoyaltyAccount` from `rb_contracts/src/lib.rs`:
`{ royalties: Vec<RoyaltyShare>, platform_fee: u8 }`. -/
structure RoyaltyAccount where
  royalties : List RoyaltyShare
  platform_fee : Nat
  deriving Repr, DecidableEq

/-- `ErrorCode` from `rb_contracts/src/lib.rs`. -/
inductive ErrorCode where
  | InvalidRoyalties
  deriving Repr, DecidableEq

/-- The schedule-persisting part of `rb_contracts::mint_nft` (lines 10-31):
sum the percents as `u32`, reject with `InvalidRoyalties` unless the total is
exactly 100, and otherwise store the supplied share list together with the
hardcoded platform fee snapshot `10` into the `RoyaltyAccount`. -/
def mint_nft (royalties : List RoyaltyShare) : Except ErrorCode RoyaltyAccount :=
  if (royalties.map (fun s => s.percent)).sum % 2 ^ 32 ≠ 100 then .error .InvalidRoyalties
  else .ok { royalties := royalties, platform_fee := 10 }

/-- Little-endian byte decomposition of a `Nat` into exactly `n` bytes. -/
def natToBytesLE : Nat → Nat → List Nat
  | 0, _ => []
  | n + 1, x => x % 256 :: natToBytesLE n (x / 256)

/-- Little-endian reassembly of a byte list into a `Nat`. -/
def bytesToNatLE : List Nat → Nat
  | [] => 0
  | b :: bs => b + 256 * bytesToNatLE bs

/-- Modelled from the spec: the derived `AnchorSerialize` (borsh) byte layout
of one `RoyaltyShare` — the derive implementation is generated code absent
from `src/` — as the 32 little-endian bytes of the `recipient` pubkey followed
by the single `percent` byte. -/
def serializeShare (s : RoyaltyShare) : List Nat :=
  natToBytesLE 32 s.recipient ++ [s.percent % 256]

/-- Modelled from the spec: the derived `AnchorSerialize` (borsh) byte layout
of a `RoyaltyAccount` — generated code absent from `src/` — as the `u32`
little-endian element count of `royalties`, the serialized shares in order,
and the single `platform_fee` byte. -/
def serializeAccount (a : RoyaltyAccount) : List Nat :=
  natToBytesLE 4 a.royalties.length ++ (a.royalties.map serializeShare).flatten
    ++ [a.platform_fee % 256]

/-- Consume exactly `n` bytes from the front of a stream, returning them with
the remainder, or `none` when the stream is too short. -/
def readBytes : Nat → List Nat → Option (List Nat × List Nat)
  | 0, bs => some ([], bs)
  | _ + 1, [] => none
  | n + 1, b :: bs =>
    match readBytes n bs with
    | none => none
    | some (taken, rest) => some (b :: taken, rest)

/-- Modelled from the spec: borsh deserialization of one `RoyaltyShare`
(inverse of `serializeShare`), consuming 32 pubkey bytes then one percent
byte. -/
def deserializeShare (bs : List Nat) : Option (RoyaltyShare × List Nat) :=
  match readBytes 32 bs with
  | none => none
  | some (keyBytes, rest) =>
    match rest with
    | [] => none
    | p :: rest2 => some ({ recipient := bytesToNatLE keyBytes, percent := p }, rest2)

/-- Deserialize exactly `n` consecutive `RoyaltyShare` records. -/
def deserializeShares : Nat → List Nat → Option (List RoyaltyShare × List Nat)
  | 0, bs => some ([], bs)
  | n + 1, bs =>
    match deserializeShare bs with
    | none => none
    | some (s, rest) =>
      match deserializeShares n rest with
      | none => none
      | some (ss, rest2) => some (s :: ss, rest2)

/-- Modelled from the spec: borsh deserialization of a `RoyaltyAccount`
(inverse of `serializeAccount`): read the `u32` count, that many shares, and
the final platform-fee byte, requiring the stream to be consumed exactly. -/
def deserializeAccount (bs : List Nat) : Option RoyaltyAccount :=
  match readBytes 4 bs with
  | none => none
  | some (lenBytes, rest) =>
    match deserializeShares (bytesToNatLE lenBytes) rest with
    | none => none
    | some (ss, rest2) =>
      match rest2 with
      | [pf] => some { royalties := ss, platform_fee := pf }
      | _ => none

end RbContracts

end RB

namespace RB

/-- For in-range inputs the two truncating casts in `split_fee` are identities:
the widened product fits `u128` and the resulting fee fits `u64`. -/
theorem split_fee_eq (gross fee_bps : Nat) (hg : gross < 2 ^ 64) (hb : fee_bps ≤ 10000) :
    Math.split_fee gross fee_bps =
      (gross * fee_bps / 10000, gross - gross * fee_bps / 10000) := by
  have hprod : gross * fee_bps < U128_MOD := by
    calc gross * fee_bps ≤ gross * 10000 := Nat.mul_le_mul_left _ hb
      _ < 2 ^ 64 * 10000 := (Nat.mul_lt_mul_right (by norm_num)).mpr hg
      _ < U128_MOD := by norm_num [U128_MOD]
  have hfee_le : gross * fee_bps / 10000 ≤ gross := by
    calc gross * fee_bps / 10000 ≤ gross * 10000 / 10000 :=
          Nat.div_le_div_right (Nat.mul_le_mul_left _ hb)
      _ = gross := Nat.mul_div_cancel gross (by norm_num)
  have hfee_lt : gross * fee_bps / 10000 < U64_MOD := lt_of_le_of_lt hfee_le hg
  simp only [Math.split_fee, Nat.mod_eq_of_lt hprod, Nat.mod_eq_of_lt hfee_lt]

/-- C1: for every gross amount in `[0, 2^63)` and every fee rate in
`[0, 10000]` basis points, `split_fee` returns `(fee, net)` with
`fee = ⌊gross * bps / 10000⌋` and `fee + net = gross`. -/
theorem split_fee_correct (gross fee_bps : Nat) (hg : gross < 2 ^ 63) (hb : fee_bps ≤ 10000) :
    (Math.split_fee gross fee_bps).1 = gross * fee_bps / 10000 ∧
    (Math.split_fee gross fee_bps).1 + (Math.split_fee gross fee_bps).2 = gross := by
  have hg64 : gross < 2 ^ 64 := lt_trans hg (by norm_num)
  have heq := split_fee_eq gross fee_bps hg64 hb
  have hfee_le : gross * fee_bps / 10000 ≤ gross := by
    calc gross * fee_bps / 10000 ≤ gross * 10000 / 10000 :=
          Nat.div_le_div_right (Nat.mul_le_mul_left _ hb)
      _ = gross := Nat.mul_div_cancel gross (by norm_num)
  rw [heq]
  exact ⟨rfl, by omega⟩

theorem split_fee_correct_witness :
    (Math.split_fee 12345 1000).1 = 12345 * 1000 / 10000 ∧
    (Math.split_fee 12345 1000).1 + (Math.split_fee 12345 1000).2 = 12345 :=
  split_fee_correct 12345 1000 (by norm_num) (by norm_num)

/-- C10: for every `u64` gross and every fee rate `≤ 10000` bps, `split_fee`
computes without overflow (the widened product fits `u128`, the fee fits
`u64`), the fee never exceeds gross, and the saturating subtraction never
saturates: `net = gross - fee` and `fee + net = gross` exactly. -/
theorem split_fee_no_overflow (gross fee_bps : Nat) (hg : gross < 2 ^ 64)
    (hb : fee_bps ≤ 10000) :
    gross * fee_bps < 2 ^ 128 ∧
    gross * fee_bps / 10000 < 2 ^ 64 ∧
    gross * fee_bps / 10000 ≤ gross ∧
    Math.split_fee gross fee_bps = (gross * fee_bps / 10000, gross - gross * fee_bps / 10000) ∧
    (Math.split_fee gross fee_bps).1 + (Math.split_fee gross fee_bps).2 = gross := by
  have hfee_le : gross * fee_bps / 10000 ≤ gross := by
    calc gross * fee_bps / 10000 ≤ gross * 10000 / 10000 :=
          Nat.div_le_div_right (Nat.mul_le_mul_left _ hb)
      _ = gross := Nat.mul_div_cancel gross (by norm_num)
  have hprod : gross * fee_bps < 2 ^ 128 := by
    calc gross * fee_bps ≤ gross * 10000 := Nat.mul_le_mul_left _ hb
      _ < 2 ^ 64 * 10000 := (Nat.mul_lt_mul_right (by norm_num)).mpr hg
      _ < 2 ^ 128 := by norm_num
  have heq := split_fee_eq gross fee_bps hg hb
  refine ⟨hprod, lt_of_le_of_lt hfee_le hg, hfee_le, heq, ?_⟩
  rw [heq]
  exact by omega

theorem split_fee_no_overflow_witness :
    (2 ^ 64 - 1) * 10000 < 2 ^ 128 ∧
    (2 ^ 64 - 1) * 10000 / 10000 < 2 ^ 64 ∧
    (2 ^ 64 - 1) * 10000 / 10000 ≤ 2 ^ 64 - 1 ∧
    Math.split_fee (2 ^ 64 - 1) 10000 =
      ((2 ^ 64 - 1) * 10000 / 10000, 2 ^ 64 - 1 - (2 ^ 64 - 1) * 10000 / 10000) ∧
    (Math.split_fee (2 ^ 64 - 1) 10000).1 + (Math.split_fee (2 ^ 64 - 1) 10000).2 = 2 ^ 64 - 1 :=
  split_fee_no_overflow (2 ^ 64 - 1) 10000 (by norm_num) (by norm_num)

/-- C8: validating an empty share list fails with `NoCreators`, and validating
any share list of more than 10 entries fails with `TooManyCreators`. -/
theorem validate_empty_and_too_many :
    validate_creator_splits [] = some .NoCreators ∧
    ∀ creator_splits : List CreatorSplitData, 10 < creator_splits.length →
      validate_creator_splits creator_splits = some .TooManyCreators := by
  refine ⟨by decide, fun creator_splits h => ?_⟩
  simp only [validate_creator_splits, if_pos h]

theorem validate_empty_and_too_many_witness :
    validate_creator_splits [] = some .NoCreators ∧
    validate_creator_splits (List.replicate 11 ⟨1, 9⟩) = some .TooManyCreators :=
  ⟨validate_empty_and_too_many.1,
    validate_empty_and_too_many.2 (List.replicate 11 ⟨1, 9⟩) (by decide)⟩

/-- C6: every share list with between 1 and 10 entries, each percentage in
`[1, 99]`, and percentages summing to exactly 100 passes validation. -/
theorem validate_valid_schedule (creator_splits : List CreatorSplitData)
    (h1 : 1 ≤ creator_splits.length) (h2 : creator_splits.length ≤ 10)
    (h3 : ∀ c ∈ creator_splits, 1 ≤ c.percentage ∧ c.percentage ≤ 99)
    (h4 : (creator_splits.map (fun c => c.percentage)).sum = 100) :
    validate_creator_splits creator_splits = none := by
  have hne : ¬ creator_splits.isEmpty = true := by
    cases creator_splits with
    | nil => simp at h1
    | cons a l => simp [List.isEmpty]
  have hany : ¬ creator_splits.any
      (fun c => !(decide (0 < c.percentage) && decide (c.percentage < 100))) = true := by
    rw [List.any_eq_true]
    rintro ⟨c, hc, hbad⟩
    have := h3 c hc
    simp only [Bool.not_eq_true', Bool.and_eq_false_iff, decide_eq_false_iff_not,
      Bool.not_eq_false, Bool.and_eq_true, decide_eq_true_eq] at hbad
    omega
  simp only [validate_creator_splits, h4]
  rw [if_neg (by omega), if_neg hne, if_neg (by norm_num), if_neg hany]

theorem validate_valid_schedule_witness :
    validate_creator_splits [⟨1, 50⟩, ⟨2, 30⟩, ⟨3, 20⟩] = none :=
  validate_valid_schedule [⟨1, 50⟩, ⟨2, 30⟩, ⟨3, 20⟩] (by decide) (by decide)
    (by decide) (by decide)

/-- C2 as stated is false: this share list is non-empty, has at most 10
entries, and contains a share with percentage 0, yet validation rejects it
with `InvalidSplitPercentage` (the sum check runs first), not
`InvalidCreatorPercentage`. -/
theorem validate_order_counterexample :
    ([⟨1, 0⟩, ⟨2, 50⟩] : List CreatorSplitData).length ≤ 10 ∧
    ([⟨1, 0⟩, ⟨2, 50⟩] : List CreatorSplitData) ≠ [] ∧
    (⟨1, 0⟩ : CreatorSplitData) ∈ ([⟨1, 0⟩, ⟨2, 50⟩] : List CreatorSplitData) ∧
    (⟨1, 0⟩ : CreatorSplitData).percentage ≤ 0 ∧
    validate_creator_splits [⟨1, 0⟩, ⟨2, 50⟩] = some .InvalidSplitPercentage ∧
    validate_creator_splits [⟨1, 0⟩, ⟨2, 50⟩] ≠ some .InvalidCreatorPercentage := by
  decide

/-- C2 amended: for every non-empty share list with at most 10 entries whose
percentages sum to exactly 100, if some share's percentage is `≤ 0` or
`≥ 100` then validation rejects with `InvalidCreatorPercentage`. -/
theorem validate_invalid_percentage (creator_splits : List CreatorSplitData)
    (hne : creator_splits ≠ []) (hlen : creator_splits.length ≤ 10)
    (hsum : (creator_splits.map (fun c => c.percentage)).sum = 100)
    (hbad : ∃ c ∈ creator_splits, c.percentage ≤ 0 ∨ 100 ≤ c.percentage) :
    validate_creator_splits creator_splits = some .InvalidCreatorPercentage := by
  have hne' : ¬ creator_splits.isEmpty = true := by
    cases creator_splits with
    | nil => exact absurd rfl hne
    | cons a l => simp [List.isEmpty]
  have hany : creator_splits.any
      (fun c => !(decide (0 < c.percentage) && decide (c.percentage < 100))) = true := by
    rw [List.any_eq_true]
    obtain ⟨c, hc, hbad⟩ := hbad
    refine ⟨c, hc, ?_⟩
    simp only [Bool.not_eq_true', Bool.and_eq_false_iff, decide_eq_false_iff_not]
    omega
  simp only [validate_creator_splits, hsum]
  rw [if_neg (by omega), if_neg hne', if_neg (by norm_num), if_pos hany]

theorem validate_invalid_percentage_witness :
    validate_creator_splits [⟨1, 100⟩] = some .InvalidCreatorPercentage :=
  validate_invalid_percentage [⟨1, 100⟩] (by decide) (by decide) (by decide)
    ⟨⟨1, 100⟩, by decide, by decide⟩

/-- C7: distributing a sale of 1,000,000 over shares `[50, 30, 20]` yields a
platform fee of 100,000, remaining amount 900,000 and creator amounts
`[450000, 270000, 180000]` summing to the remaining amount exactly, and a sale
of 2,000,000 over `[50, 50]` yields platform fee 200,000 and 900,000 to each
creator. -/
theorem distribution_examples :
    mint_collaborative_nft 1000000 [⟨1, 50⟩, ⟨2, 30⟩, ⟨3, 20⟩] [1, 2, 3] =
      .ok { platform_fee := 100000, remaining_amount := 900000,
            creator_amounts := [450000, 270000, 180000], num_creators := 3,
            trace := [.feeTransfer PLATFORM_WALLET 100000, .creatorTransfer 0 1 450000,
                      .creatorTransfer 1 2 270000, .creatorTransfer 2 3 180000, .mintToken] } ∧
    ([450000, 270000, 180000] : List Nat).sum = 900000 ∧
    mint_collaborative_nft 2000000 [⟨1, 50⟩, ⟨2, 50⟩] [1, 2] =
      .ok { platform_fee := 200000, remaining_amount := 1800000,
            creator_amounts := [900000, 900000], num_creators := 2,
            trace := [.feeTransfer PLATFORM_WALLET 200000, .creatorTransfer 0 1 900000,
                      .creatorTransfer 1 2 900000, .mintToken] } :=
  ⟨rfl, rfl, rfl⟩

/-- A successful run of the creator-distribution loop started at position `i`
issues only creator transfers at positions `≥ i`, pairwise in strictly
increasing schedule position. -/
theorem distribute_creators_ok_trace (remaining_amount : Nat) :
    ∀ (creator_splits : List CreatorSplitData) (remaining_accounts : List Nat)
      (i : Nat) (tr : List Action),
      distribute_creators remaining_amount creator_splits remaining_accounts i = .ok tr →
      (∀ a ∈ tr, ∃ k d m, a = Action.creatorTransfer k d m ∧ i ≤ k) ∧
      tr.Pairwise (fun a b => scheduleOrderB a b = true) := by
  intro creator_splits
  induction creator_splits with
  | nil =>
    intro accounts i tr h
    simp only [distribute_creators] at h
    cases h
    exact ⟨by simp, List.Pairwise.nil⟩
  | cons s rest ih =>
    intro accounts i tr h
    rw [distribute_creators] at h
    by_cases hamt : 0 < creator_amount remaining_amount s.percentage
    · rw [if_pos hamt] at h
      cases hget : accounts.get? i with
      | none => rw [hget] at h; exact absurd h (by simp)
      | some acct =>
        rw [hget] at h
        dsimp only at h
        by_cases hkey : acct = s.creator_pubkey
        · rw [if_pos hkey] at h
          cases hrec : distribute_creators remaining_amount rest accounts (i + 1) with
          | error e => rw [hrec] at h; exact absurd h (by simp)
          | ok tr' =>
            rw [hrec] at h
            dsimp only at h
            cases h
            obtain ⟨hmem, hpw⟩ := ih accounts (i + 1) tr' hrec
            refine ⟨?_, ?_⟩
            · intro a ha
              rcases List.mem_cons.mp ha with ha | ha
              · exact ⟨i, acct, creator_amount remaining_amount s.percentage, ha, le_refl i⟩
              · obtain ⟨k, d, m, hk, hik⟩ := hmem a ha
                exact ⟨k, d, m, hk, by omega⟩
            · refine List.Pairwise.cons ?_ hpw
              intro b hb
              obtain ⟨k, d, m, hk, hik⟩ := hmem b hb
              subst hk
              simp only [scheduleOrderB, decide_eq_true_eq]
              omega
        · rw [if_neg hkey] at h; exact absurd h (by simp)
    · rw [if_neg hamt] at h
      obtain ⟨hmem, hpw⟩ := ih accounts (i + 1) tr h
      refine ⟨?_, hpw⟩
      intro a ha
      obtain ⟨k, d, m, hk, hik⟩ := hmem a ha
      exact ⟨k, d, m, hk, by omega⟩

/-- `scheduleOrderB` always holds with a fee transfer on the left. -/
theorem scheduleOrderB_fee_left (d m : Nat) (b : Action) :
    scheduleOrderB (.feeTransfer d m) b = true := by
  cases b <;> rfl

/-- `scheduleOrderB` always holds with the token issuance on the right. -/
theorem scheduleOrderB_mint_right (a : Action) :
    scheduleOrderB a .mintToken = true := by
  cases a <;> rfl

/-- C3: in both mint operations, every platform-fee transfer is issued before
every creator-share transfer, creator shares are issued in strictly increasing
schedule order, and token issuance is never issued before a creator-share
transfer — stated as a pairwise ordering over the issued action trace. -/
theorem mint_ordering (sale_amount_lamports : Nat)
    (creator_splits : List CreatorSplitData) (remaining_accounts : List Nat)
    (res : CollabResult)
    (h : mint_collaborative_nft sale_amount_lamports creator_splits remaining_accounts = .ok res) :
    (mint_nft sale_amount_lamports).trace.Pairwise (fun a b => scheduleOrderB a b = true) ∧
    res.trace.Pairwise (fun a b => scheduleOrderB a b = true) := by
  constructor
  · simp only [mint_nft]
    by_cases hfee : 0 < platform_fee_of sale_amount_lamports
    · rw [if_pos hfee]
      refine List.Pairwise.cons ?_ (List.pairwise_singleton _ _)
      intro b hb
      rcases List.mem_singleton.mp hb with rfl
      rfl
    · rw [if_neg hfee]
      exact List.Pairwise.cons (by simp) List.Pairwise.nil
  · rw [mint_collaborative_nft] at h
    cases hval : validate_creator_splits creator_splits with
    | some e => rw [hval] at h; exact absurd h (by simp)
    | none =>
      rw [hval] at h
      dsimp only at h
      cases hrec : distribute_creators (remaining_of sale_amount_lamports) creator_splits
          remaining_accounts 0 with
      | error e => rw [hrec] at h; exact absurd h (by simp)
      | ok tr =>
        rw [hrec] at h
        dsimp only at h
        cases h
        obtain ⟨hmem, hpw⟩ := distribute_creators_ok_trace (remaining_of sale_amount_lamports)
          creator_splits remaining_accounts 0 tr hrec
        dsimp only
        rw [List.pairwise_append]
        refine ⟨?_, List.pairwise_singleton _ _, ?_⟩
        · rw [List.pairwise_append]
          refine ⟨?_, hpw, ?_⟩
          · by_cases hfee : 0 < platform_fee_of sale_amount_lamports
            · rw [if_pos hfee]; exact List.pairwise_singleton _ _
            · rw [if_neg hfee]; exact List.Pairwise.nil
          · intro a ha b hb
            by_cases hfee : 0 < platform_fee_of sale_amount_lamports
            · rw [if_pos hfee] at ha
              rcases List.mem_singleton.mp ha with rfl
              exact scheduleOrderB_fee_left _ _ b
            · rw [if_neg hfee] at ha; simp at ha
        · intro a ha b hb
          rcases List.mem_singleton.mp hb with rfl
          exact scheduleOrderB_mint_right a

/-- If every schedule position before `k` is either skipped (zero computed
amount) or passes its account check, and position `k` has a nonzero computed
amount, then the distribution loop started at offset `start` fails with
`MissingCreatorAccount` when the account at `start + k` is absent and with
`CreatorAccountMismatch` when it is present but differs from the recorded
recipient. -/
theorem distribute_creators_first_bad (remaining_amount : Nat) :
    ∀ (creator_splits : List CreatorSplitData) (remaining_accounts : List Nat) (start k : Nat)
      (hk : k < creator_splits.length),
      (∀ j (hj : j < creator_splits.length), j < k →
        creator_amount remaining_amount (creator_splits.get ⟨j, hj⟩).percentage = 0 ∨
        remaining_accounts.get? (start + j) =
          some (creator_splits.get ⟨j, hj⟩).creator_pubkey) →
      0 < creator_amount remaining_amount (creator_splits.get ⟨k, hk⟩).percentage →
      ((remaining_accounts.get? (start + k) = none →
        distribute_creators remaining_amount creator_splits remaining_accounts start =
          .error .MissingCreatorAccount) ∧
       (∀ a, remaining_accounts.get? (start + k) = some a →
        a ≠ (creator_splits.get ⟨k, hk⟩).creator_pubkey →
        distribute_creators remaining_amount creator_splits remaining_accounts start =
          .error .CreatorAccountMismatch)) := by
  intro creator_splits
  induction creator_splits with
  | nil =>
    intro accounts start k hk
    exact absurd hk (by simp)
  | cons s rest ih =>
    intro accounts start k hk hprev hamt
    cases k with
    | zero =>
      have hamt0 : 0 < creator_amount remaining_amount s.percentage := hamt
      constructor
      · intro hnone
        rw [Nat.add_zero] at hnone
        rw [distribute_creators, if_pos hamt0, hnone]
      · intro a ha hne
        have hne0 : a ≠ s.creator_pubkey := hne
        rw [Nat.add_zero] at ha
        rw [distribute_creators, if_pos hamt0, ha]
        dsimp only
        rw [if_neg hne0]
    | succ j =>
      have hj : j < rest.length := by
        simpa using Nat.lt_of_succ_lt_succ hk
      have hprev' : ∀ j' (hj' : j' < rest.length), j' < j →
          creator_amount remaining_amount (rest.get ⟨j', hj'⟩).percentage = 0 ∨
          accounts.get? (start + 1 + j') = some (rest.get ⟨j', hj'⟩).creator_pubkey := by
        intro j' hj' hj'j
        have hstep : creator_amount remaining_amount (rest.get ⟨j', hj'⟩).percentage = 0 ∨
            accounts.get? (start + (j' + 1)) = some (rest.get ⟨j', hj'⟩).creator_pubkey :=
          hprev (j' + 1) (by simpa using Nat.succ_lt_succ hj') (by omega)
        rwa [show start + (j' + 1) = start + 1 + j' from by omega] at hstep
      have hamt' : 0 < creator_amount remaining_amount (rest.get ⟨j, hj⟩).percentage := hamt
      have hrec := ih accounts (start + 1) j hj hprev' hamt'
      have hidx : start + (j + 1) = start + 1 + j := by omega
      by_cases h0 : 0 < creator_amount remaining_amount s.percentage
      · have hacc : accounts.get? start = some s.creator_pubkey := by
          have hfirst : creator_amount remaining_amount s.percentage = 0 ∨
              accounts.get? (start + 0) = some s.creator_pubkey :=
            hprev 0 (by simp) (Nat.succ_pos j)
          rcases hfirst with h | h
          · omega
          · rwa [Nat.add_zero] at h
        constructor
        · intro hnone
          rw [hidx] at hnone
          rw [distribute_creators, if_pos h0, hacc]
          dsimp only
          rw [if_pos rfl, hrec.1 hnone]
        · intro a ha hne
          rw [hidx] at ha
          have hne' : a ≠ (rest.get ⟨j, hj⟩).creator_pubkey := hne
          rw [distribute_creators, if_pos h0, hacc]
          dsimp only
          rw [if_pos rfl, hrec.2 a ha hne']
      · constructor
        · intro hnone
          rw [hidx] at hnone
          rw [distribute_creators, if_neg h0]
          exact hrec.1 hnone
        · intro a ha hne
          rw [hidx] at ha
          have hne' : a ≠ (rest.get ⟨j, hj⟩).creator_pubkey := hne
          rw [distribute_creators, if_neg h0]
          exact hrec.2 a ha hne'

/-- C4 amended: for a validated schedule, at the first position `k` whose
computed creator amount is nonzero and whose account check is not satisfied
(all earlier positions being either skipped for a zero computed amount or
supplied with the matching account), the mint fails with
`MissingCreatorAccount` when no account is supplied at `k` and with
`CreatorAccountMismatch` when the supplied account differs from the recorded
recipient; positions whose computed creator amount is zero are skipped without
any account check. -/
theorem creator_account_checks (sale_amount_lamports : Nat)
    (creator_splits : List CreatorSplitData) (remaining_accounts : List Nat)
    (k : Nat) (hk : k < creator_splits.length)
    (hval : validate_creator_splits creator_splits = none)
    (hprev : ∀ j (hj : j < creator_splits.length), j < k →
      creator_amount (remaining_of sale_amount_lamports)
        (creator_splits.get ⟨j, hj⟩).percentage = 0 ∨
      remaining_accounts.get? j = some (creator_splits.get ⟨j, hj⟩).creator_pubkey)
    (hamt : 0 < creator_amount (remaining_of sale_amount_lamports)
      (creator_splits.get ⟨k, hk⟩).percentage) :
    (remaining_accounts.get? k = none →
      mint_collaborative_nft sale_amount_lamports creator_splits remaining_accounts =
        .error .MissingCreatorAccount) ∧
    (∀ a, remaining_accounts.get? k = some a →
      a ≠ (creator_splits.get ⟨k, hk⟩).creator_pubkey →
      mint_collaborative_nft sale_amount_lamports creator_splits remaining_accounts =
        .error .CreatorAccountMismatch) := by
  have hbad := distribute_creators_first_bad (remaining_of sale_amount_lamports)
    creator_splits remaining_accounts 0 k hk
    (by intro j hj hjk; simpa using hprev j hj hjk) hamt
  constructor
  · intro hnone
    rw [mint_collaborative_nft, hval]
    dsimp only
    rw [hbad.1 (by simpa using hnone)]
  · intro a ha hne
    rw [mint_collaborative_nft, hval]
    dsimp only
    rw [hbad.2 a (by simpa using ha) hne]

theorem creator_account_checks_witness :
    mint_collaborative_nft 1000000 [⟨1, 50⟩, ⟨2, 50⟩] [] = .error .MissingCreatorAccount :=
  (creator_account_checks 1000000 [⟨1, 50⟩, ⟨2, 50⟩] [] 0 (by decide) rfl
    (fun j hj hjk => absurd hjk (by omega)) (by decide)).1 rfl

/-- C4 as stated is false: with sale amount 0 every computed creator amount is
0, so the distribution loop never inspects the supplied accounts; here no
account at all is supplied for position 0, yet the mint succeeds instead of
failing with `MissingCreatorAccount`. -/
theorem account_check_skip_counterexample :
    ([] : List Nat).get? 0 = none ∧
    mint_collaborative_nft 0 [⟨5, 50⟩, ⟨6, 50⟩] [] =
      .ok { platform_fee := 0, remaining_amount := 0, creator_amounts := [0, 0],
            num_creators := 2, trace := [.mintToken] } ∧
    mint_collaborative_nft 0 [⟨5, 50⟩, ⟨6, 50⟩] [] ≠
      .error .MissingCreatorAccount := by
  refine ⟨rfl, rfl, ?_⟩
  intro hcontra
  have hok : mint_collaborative_nft 0 [⟨5, 50⟩, ⟨6, 50⟩] [] =
      .ok { platform_fee := 0, remaining_amount := 0, creator_amounts := [0, 0],
            num_creators := 2, trace := [.mintToken] } := rfl
  rw [hok] at hcontra
  exact Except.noConfusion hcontra

/-- Inversion of a passing validation: the list has at most 10 entries, is
non-empty, its percentages sum (as `u16`) to 100, and every percentage is
strictly between 0 and 100. -/
theorem validate_none_facts (creator_splits : List CreatorSplitData)
    (h : validate_creator_splits creator_splits = none) :
    creator_splits.length ≤ 10 ∧ creator_splits ≠ [] ∧
    (creator_splits.map (fun c => c.percentage)).sum % 2 ^ 16 = 100 ∧
    ∀ c ∈ creator_splits, 0 < c.percentage ∧ c.percentage < 100 := by
  rw [validate_creator_splits] at h
  split_ifs at h with h1 h2 h3 h4
  refine ⟨by omega, ?_, not_not.mp h3, ?_⟩
  · intro hnil
    subst hnil
    simp at h2
  · intro c hc
    by_contra hcon
    rw [List.any_eq_true] at h4
    refine h4 ⟨c, hc, ?_⟩
    simp only [Bool.not_eq_true', Bool.and_eq_false_iff, decide_eq_false_iff_not]
    omega

/-- Division is superadditive: the sum of two floored quotients is at most the
floored quotient of the sum. -/
theorem div_add_div_le (x y n : Nat) (hn : 0 < n) : x / n + y / n ≤ (x + y) / n := by
  rw [Nat.le_div_iff_mul_le hn]
  calc (x / n + y / n) * n = x / n * n + y / n * n := Nat.add_mul _ _ _
    _ ≤ x + y := Nat.add_le_add (Nat.div_mul_le_self x n) (Nat.div_mul_le_self y n)

/-- Summing per-share floored quotients never exceeds the floored quotient of
the total. -/
theorem sum_div_le (r n : Nat) (hn : 0 < n) (l : List Nat) :
    (l.map (fun p => r * p / n)).sum ≤ r * l.sum / n := by
  induction l with
  | nil => simp
  | cons p rest ih =>
    simp only [List.map_cons, List.sum_cons]
    calc r * p / n + (rest.map (fun p => r * p / n)).sum
        ≤ r * p / n + r * rest.sum / n := Nat.add_le_add_left ih _
      _ ≤ (r * p + r * rest.sum) / n := div_add_div_le _ _ _ hn
      _ = r * (p + rest.sum) / n := by rw [Nat.mul_add]

/-- Each per-share flooring loses at most 99 units, so the floored shares
recover all but `99 * count` of `r` times the percentage total. -/
theorem sum_div_lower_100 (r : Nat) (l : List Nat) :
    r * l.sum ≤ 100 * (l.map (fun p => r * p / 100)).sum + 99 * l.length := by
  induction l with
  | nil => simp
  | cons p rest ih =>
    simp only [List.map_cons, List.sum_cons, List.length_cons]
    have h1 : r * p ≤ 100 * (r * p / 100) + 99 := by
      have hdm := Nat.div_add_mod (r * p) 100
      have hlt : (r * p) % 100 < 100 := Nat.mod_lt _ (by norm_num)
      omega
    have h2 : r * (p + rest.sum) = r * p + r * rest.sum := by ring
    have h3 : 100 * (r * p / 100 + (rest.map (fun p => r * p / 100)).sum)
          + 99 * (rest.length + 1)
        = (100 * (r * p / 100) + 99)
          + (100 * (rest.map (fun p => r * p / 100)).sum + 99 * rest.length) := by ring
    rw [h2, h3]
    exact Nat.add_le_add h1 ih

/-- For a `u64` sale amount the two truncating casts in the platform-fee
computation are identities. -/
theorem platform_fee_of_eq (sale_amount_lamports : Nat) (h : sale_amount_lamports < 2 ^ 64) :
    platform_fee_of sale_amount_lamports = sale_amount_lamports * 1000 / 10000 := by
  have hprod : sale_amount_lamports * 1000 < U128_MOD := by
    calc sale_amount_lamports * 1000 < 2 ^ 64 * 1000 :=
          (Nat.mul_lt_mul_right (by norm_num)).mpr h
      _ < U128_MOD := by norm_num [U128_MOD]
  have hfee_le : sale_amount_lamports * 1000 / 10000 ≤ sale_amount_lamports := by
    calc sale_amount_lamports * 1000 / 10000 ≤ sale_amount_lamports * 10000 / 10000 :=
          Nat.div_le_div_right (Nat.mul_le_mul_left _ (by norm_num))
      _ = sale_amount_lamports := Nat.mul_div_cancel _ (by norm_num)
  have hlt : sale_amount_lamports * 1000 / 10000 < U64_MOD := lt_of_le_of_lt hfee_le h
  rw [platform_fee_of, Nat.mod_eq_of_lt hprod, Nat.mod_eq_of_lt hlt]

/-- For a `u64` remaining amount and a percentage at most 100 the two
truncating casts in the per-creator amount computation are identities, and the
computed amount never exceeds the remaining amount. -/
theorem creator_amount_eq (remaining_amount percentage : Nat)
    (hr : remaining_amount < 2 ^ 64) (hp : percentage ≤ 100) :
    creator_amount remaining_amount percentage = remaining_amount * percentage / 100 ∧
    remaining_amount * percentage / 100 ≤ remaining_amount := by
  have hle : remaining_amount * percentage / 100 ≤ remaining_amount := by
    calc remaining_amount * percentage / 100 ≤ remaining_amount * 100 / 100 :=
          Nat.div_le_div_right (Nat.mul_le_mul_left _ hp)
      _ = remaining_amount := Nat.mul_div_cancel _ (by norm_num)
  have hprod : remaining_amount * percentage < U128_MOD := by
    calc remaining_amount * percentage ≤ remaining_amount * 100 := Nat.mul_le_mul_left _ hp
      _ < 2 ^ 64 * 100 := (Nat.mul_lt_mul_right (by norm_num)).mpr hr
      _ < U128_MOD := by norm_num [U128_MOD]
  have hlt : remaining_amount * percentage / 100 < U64_MOD := lt_of_le_of_lt hle hr
  refine ⟨?_, hle⟩
  rw [creator_amount, Nat.mod_eq_of_lt hprod, Nat.mod_eq_of_lt hlt]

/-- C5: for every `u64` sale amount, a successful collaborative mint computes
`platform_fee = ⌊sale * 1000 / 10000⌋`, `remaining = sale - platform_fee`, a
per-creator amount of `⌊remaining * percentage_i / 100⌋` at each schedule
position, with the amounts summing to at most `remaining` and falling short of
it by at most `count - 1`. -/
theorem distribution_result_bounds (sale_amount_lamports : Nat)
    (creator_splits : List CreatorSplitData) (remaining_accounts : List Nat)
    (res : CollabResult) (hsale : sale_amount_lamports < 2 ^ 64)
    (h : mint_collaborative_nft sale_amount_lamports creator_splits remaining_accounts =
      .ok res) :
    res.platform_fee = sale_amount_lamports * 1000 / 10000 ∧
    res.remaining_amount = sale_amount_lamports - res.platform_fee ∧
    res.creator_amounts =
      creator_splits.map (fun s => res.remaining_amount * s.percentage / 100) ∧
    res.creator_amounts.sum ≤ res.remaining_amount ∧
    res.remaining_amount - res.creator_amounts.sum ≤ res.num_creators - 1 := by
  rw [mint_collaborative_nft] at h
  cases hval : validate_creator_splits creator_splits with
  | some e => rw [hval] at h; exact absurd h (by simp)
  | none =>
    rw [hval] at h
    dsimp only at h
    cases hrec : distribute_creators (remaining_of sale_amount_lamports) creator_splits
        remaining_accounts 0 with
    | error e => rw [hrec] at h; exact absurd h (by simp)
    | ok tr =>
      rw [hrec] at h
      dsimp only at h
      cases h
      obtain ⟨hlen, hne, hsummod, hpct⟩ := validate_none_facts creator_splits hval
      have hrem_le : remaining_of sale_amount_lamports ≤ sale_amount_lamports :=
        Nat.sub_le _ _
      have hrem : remaining_of sale_amount_lamports < 2 ^ 64 :=
        lt_of_le_of_lt hrem_le hsale
      have hsum100 : (creator_splits.map (fun c => c.percentage)).sum = 100 := by
        have hb : ∀ x ∈ creator_splits.map (fun c => c.percentage), x ≤ 99 := by
          intro x hx
          obtain ⟨c, hc, rfl⟩ := List.mem_map.mp hx
          have := hpct c hc
          omega
        have hsle := List.sum_le_card_nsmul _ 99 hb
        rw [List.length_map, smul_eq_mul] at hsle
        have : (creator_splits.map (fun c => c.percentage)).sum < 2 ^ 16 := by
          calc (creator_splits.map (fun c => c.percentage)).sum
              ≤ creator_splits.length * 99 := hsle
            _ ≤ 10 * 99 := Nat.mul_le_mul_right _ hlen
            _ < 2 ^ 16 := by norm_num
        rwa [Nat.mod_eq_of_lt this] at hsummod
      have hmap : creator_splits.map
            (fun s => creator_amount (remaining_of sale_amount_lamports) s.percentage)
          = creator_splits.map
            (fun s => remaining_of sale_amount_lamports * s.percentage / 100) := by
        refine List.map_congr_left ?_
        intro c hc
        have := hpct c hc
        exact (creator_amount_eq (remaining_of sale_amount_lamports) c.percentage hrem
          (by omega)).1
      have hmap2 : creator_splits.map
            (fun s => remaining_of sale_amount_lamports * s.percentage / 100)
          = (creator_splits.map (fun c => c.percentage)).map
            (fun p => remaining_of sale_amount_lamports * p / 100) := by
        rw [List.map_map]
        rfl
      have hS_le : (creator_splits.map
            (fun s => remaining_of sale_amount_lamports * s.percentage / 100)).sum
          ≤ remaining_of sale_amount_lamports := by
        rw [hmap2]
        calc ((creator_splits.map (fun c => c.percentage)).map
              (fun p => remaining_of sale_amount_lamports * p / 100)).sum
            ≤ remaining_of sale_amount_lamports *
              (creator_splits.map (fun c => c.percentage)).sum / 100 :=
              sum_div_le _ 100 (by norm_num) _
          _ = remaining_of sale_amount_lamports := by
              rw [hsum100, Nat.mul_div_cancel _ (by norm_num)]
      have hlow : remaining_of sale_amount_lamports * 100
          ≤ 100 * (creator_splits.map
              (fun s => remaining_of sale_amount_lamports * s.percentage / 100)).sum
            + 99 * creator_splits.length := by
        have := sum_div_lower_100 (remaining_of sale_amount_lamports)
          (creator_splits.map (fun c => c.percentage))
        rw [hsum100, List.length_map] at this
        rw [hmap2]
        exact this
      have hlen1 : 1 ≤ creator_splits.length := by
        cases creator_splits with
        | nil => exact absurd rfl hne
        | cons a l => simp
      dsimp only
      rw [hmap]
      refine ⟨platform_fee_of_eq sale_amount_lamports hsale, rfl, rfl, hS_le, ?_⟩
      omega

theorem distribution_result_bounds_witness :
    (100000 : Nat) = 1000000 * 1000 / 10000 ∧
    (900000 : Nat) = 1000000 - 100000 ∧
    ([450000, 270000, 180000] : List Nat) =
      ([⟨1, 50⟩, ⟨2, 30⟩, ⟨3, 20⟩] : List CreatorSplitData).map
        (fun s => 900000 * s.percentage / 100) ∧
    ([450000, 270000, 180000] : List Nat).sum ≤ 900000 ∧
    (900000 : Nat) - ([450000, 270000, 180000] : List Nat).sum ≤ 3 - 1 :=
  distribution_result_bounds 1000000 [⟨1, 50⟩, ⟨2, 30⟩, ⟨3, 20⟩] [1, 2, 3]
    { platform_fee := 100000, remaining_amount := 900000,
      creator_amounts := [450000, 270000, 180000], num_creators := 3,
      trace := [.feeTransfer PLATFORM_WALLET 100000, .creatorTransfer 0 1 450000,
                .creatorTransfer 1 2 270000, .creatorTransfer 2 3 180000, .mintToken] }
    (by norm_num) rfl

theorem mint_ordering_witness :
    (mint_nft 1000000).trace.Pairwise (fun a b => scheduleOrderB a b = true) ∧
    ({ platform_fee := 100000, remaining_amount := 900000,
       creator_amounts := [450000, 270000, 180000], num_creators := 3,
       trace := [.feeTransfer PLATFORM_WALLET 100000, .creatorTransfer 0 1 450000,
                 .creatorTransfer 1 2 270000, .creatorTransfer 2 3 180000,
                 .mintToken] } : CollabResult).trace.Pairwise
      (fun a b => scheduleOrderB a b = true) :=
  mint_ordering 1000000 [⟨1, 50⟩, ⟨2, 30⟩, ⟨3, 20⟩] [1, 2, 3] _ rfl

end RB

namespace RB.RbContracts

/-- `natToBytesLE` always produces exactly the requested number of bytes. -/
theorem natToBytesLE_length (n : Nat) : ∀ x : Nat, (natToBytesLE n x).length = n := by
  induction n with
  | zero => intro x; rfl
  | succ n ih => intro x; simp [natToBytesLE, ih]

/-- Reassembling the little-endian byte decomposition recovers the value
modulo `256 ^ n`. -/
theorem bytesToNatLE_natToBytesLE (n : Nat) : ∀ x : Nat,
    bytesToNatLE (natToBytesLE n x) = x % 256 ^ n := by
  induction n with
  | zero => intro x; simp [natToBytesLE, bytesToNatLE, Nat.mod_one]
  | succ n ih =>
    intro x
    rw [natToBytesLE, bytesToNatLE, ih, pow_succ', Nat.mod_mul]

/-- Reading back exactly the bytes that were prepended to a stream returns
them together with the untouched remainder. -/
theorem readBytes_append (xs : List Nat) : ∀ rest : List Nat,
    readBytes xs.length (xs ++ rest) = some (xs, rest) := by
  induction xs with
  | nil => intro rest; rfl
  | cons b bs ih =>
    intro rest
    simp only [List.length_cons, List.cons_append, readBytes, List.append_eq, ih]

/-- Deserializing a serialized share from the front of a stream recovers the
share exactly and leaves the remainder untouched, for well-formed field
values. -/
theorem deserializeShare_serializeShare (s : RoyaltyShare) (rest : List Nat)
    (hr : s.recipient < 2 ^ 256) (hp : s.percent < 256) :
    deserializeShare (serializeShare s ++ rest) = some (s, rest) := by
  rw [serializeShare, List.append_assoc]
  have hread := readBytes_append (natToBytesLE 32 s.recipient) ([s.percent % 256] ++ rest)
  rw [natToBytesLE_length] at hread
  rw [deserializeShare, hread]
  dsimp only [List.singleton_append]
  rw [bytesToNatLE_natToBytesLE]
  have h32 : (256 : Nat) ^ 32 = 2 ^ 256 := by norm_num
  rw [h32, Nat.mod_eq_of_lt hr, Nat.mod_eq_of_lt hp]

/-- Deserializing the concatenation of serialized shares recovers the share
list exactly. -/
theorem deserializeShares_roundtrip (ss : List RoyaltyShare) :
    ∀ rest : List Nat, (∀ s ∈ ss, s.recipient < 2 ^ 256 ∧ s.percent < 256) →
    deserializeShares ss.length ((ss.map serializeShare).flatten ++ rest) = some (ss, rest) := by
  induction ss with
  | nil => intro rest _; rfl
  | cons s tail ih =>
    intro rest hwf
    simp only [List.map_cons, List.flatten_cons, List.length_cons, List.append_assoc]
    rw [deserializeShares,
      deserializeShare_serializeShare s _ (hwf s (by simp)).1 (hwf s (by simp)).2]
    dsimp only
    rw [ih rest (fun x hx => hwf x (by simp [hx]))]

/-- C9: after a successful `mint_nft` the stored `RoyaltyAccount` holds
exactly the validated share list together with the platform fee snapshot 10
taken at mint time, and this record round-trips exactly (shares and fee rate
unchanged) through serialization followed by deserialization. -/
theorem royalty_schedule_roundtrip (royalties : List RoyaltyShare) (a : RoyaltyAccount)
    (hwf : ∀ s ∈ royalties, s.recipient < 2 ^ 256 ∧ s.percent < 256)
    (hlen : royalties.length < 2 ^ 32)
    (hmint : mint_nft royalties = .ok a) :
    a.royalties = royalties ∧ a.platform_fee = 10 ∧
    deserializeAccount (serializeAccount a) = some a := by
  rw [mint_nft] at hmint
  by_cases hsum : (royalties.map (fun s => s.percent)).sum % 2 ^ 32 ≠ 100
  · rw [if_pos hsum] at hmint
    exact absurd hmint (by simp)
  · rw [if_neg hsum] at hmint
    cases hmint
    refine ⟨rfl, rfl, ?_⟩
    rw [serializeAccount]
    dsimp only
    rw [List.append_assoc]
    have hread := readBytes_append (natToBytesLE 4 royalties.length)
      ((royalties.map serializeShare).flatten ++ [10 % 256])
    rw [natToBytesLE_length] at hread
    rw [deserializeAccount, hread]
    dsimp only
    rw [bytesToNatLE_natToBytesLE]
    have h4 : (256 : Nat) ^ 4 = 2 ^ 32 := by norm_num
    rw [h4, Nat.mod_eq_of_lt hlen,
      deserializeShares_roundtrip royalties [10 % 256] hwf]

theorem royalty_schedule_roundtrip_witness :
    ({ royalties := [⟨1, 60⟩, ⟨2, 40⟩], platform_fee := 10 } : RoyaltyAccount).royalties =
      [⟨1, 60⟩, ⟨2, 40⟩] ∧
    ({ royalties := [⟨1, 60⟩, ⟨2, 40⟩], platform_fee := 10 } : RoyaltyAccount).platform_fee =
      10 ∧
    deserializeAccount (serializeAccount
        { royalties := [⟨1, 60⟩, ⟨2, 40⟩], platform_fee := 10 }) =
      some { royalties := [⟨1, 60⟩, ⟨2, 40⟩], platform_fee := 10 } :=
  royalty_schedule_roundtrip [⟨1, 60⟩, ⟨2, 40⟩]
    { royalties := [⟨1, 60⟩, ⟨2, 40⟩], platform_fee := 10 }
    (by decide) (by norm_num) rfl

end RB.RbContracts
